import Mathlib

/-!
Verification of the LFU cache in `lfu.go` (package `lfu`).

The Go structure is embedded shallowly:

* `kvItem` holds a key, a value and a `parent` back-reference to the
  frequency node that currently contains it.  Keys are unique in the
  `kv` map, and the set of items stored in the frequency buckets is
  exactly the set of items reachable from `kv`, so an item is
  identified here by its key; the `parent` back-reference is realised
  by locating the unique bucket whose member list contains the key.
* the Go map `kv : map[string]*kvItem` becomes an association list
  `List (String × α)`; map iteration order (used by `Evict` when it
  ranges over a bucket's members) is determinised to list order.
* `freqList : *list.List` of `freqNode` becomes `List FreqNode`.
* `interface{}` values become a type parameter `α`.
-/

namespace LFU

/-- A frequency bucket (`freqNode` in the Go source): an access count and
the members currently at that count.  Go stores members as a map from
item pointer to a placeholder; here it is the list of their keys. -/
structure FreqNode where
  freq : Int
  items : List String
  deriving DecidableEq

/-- The cache state (`cache` in the Go source): capacity, the key index
and the frequency-bucket list. -/
structure Cache (α : Type) where
  cap : Int
  kv : List (String × α)
  freqList : List FreqNode
  deriving DecidableEq

/-- Constructor `New` (Go `New(cap int)`): empty key index, empty
frequency list. -/
def New (α : Type) (cap : Int) : Cache α :=
  { cap := cap, kv := [], freqList := [] }

/-- Keys of the key index. -/
def kvKeys (kv : List (String × α)) : List String :=
  kv.map Prod.fst

/-- Go map read `v, ok := c.kv[k]`. -/
def mapLookup : List (String × α) → String → Option α
  | [], _ => none
  | p :: rest, k => if p.1 = k then some p.2 else mapLookup rest k

/-- Go `item.v = v` on the item that `kv[k]` points to: update the value
stored under key `k`, keys unchanged. -/
def mapUpdate : List (String × α) → String → α → List (String × α)
  | [], _, _ => []
  | p :: rest, k, v =>
    if p.1 = k then (p.1, v) :: mapUpdate rest k v else p :: mapUpdate rest k v

/-- Go `delete(frontNode.items, item)` determinised: remove the first
occurrence of a key from a member list. -/
def eraseKey (k : String) : List String → List String
  | [] => []
  | x :: rest => if x = k then rest else x :: eraseKey k rest

/-- All keys stored in the buckets, in bucket order. -/
def bucketKeys : List FreqNode → List String
  | [] => []
  | b :: rest => b.items ++ bucketKeys rest

/-- Sum of the bucket member counts. -/
def sumItems : List FreqNode → Nat
  | [] => 0
  | b :: rest => b.items.length + sumItems rest

/-- The frequency of the bucket containing key `k` (the `parent`
back-reference realised as a lookup), `0` when `k` is in no bucket. -/
def freqOf (l : List FreqNode) (k : String) : Int :=
  match l with
  | [] => 0
  | b :: rest => if k ∈ b.items then b.freq else freqOf rest k

/-- The new-key placement of Go `Set` (lines 68–92): if the front bucket
exists and has frequency 1 the item joins it, otherwise a fresh
frequency-1 bucket is pushed at the front. -/
def placeNewList (k : String) : List FreqNode → List FreqNode
  | [] => [⟨1, [k]⟩]
  | front :: rest =>
    if front.freq = 1 then ⟨front.freq, front.items ++ [k]⟩ :: rest
    else ⟨1, [k]⟩ :: front :: rest

/-- The effect of Go `increment` at the bucket `curr` that contains the
item, `rest` being the buckets after `curr`: splice a fresh
`curr.freq + 1` bucket after `curr` (when no successor of that frequency
exists) or merge into the successor, remove the item from `curr`, and
drop `curr` when it became empty. -/
def incItems (k : String) (curr : FreqNode) (rest : List FreqNode) : List FreqNode :=
  let removed := eraseKey k curr.items
  match rest with
  | [] =>
    if removed = [] then [⟨curr.freq + 1, [k]⟩]
    else [⟨curr.freq, removed⟩, ⟨curr.freq + 1, [k]⟩]
  | nb :: rest' =>
    if nb.freq = curr.freq + 1 then
      if removed = [] then ⟨nb.freq, nb.items ++ [k]⟩ :: rest'
      else ⟨curr.freq, removed⟩ :: ⟨nb.freq, nb.items ++ [k]⟩ :: rest'
    else
      if removed = [] then ⟨curr.freq + 1, [k]⟩ :: nb :: rest'
      else ⟨curr.freq, removed⟩ :: ⟨curr.freq + 1, [k]⟩ :: nb :: rest'

/-- Go `increment(item)` on the bucket list: locate the bucket holding
the item (its `parent`) and apply `incItems` there. -/
def incrementList (k : String) : List FreqNode → List FreqNode
  | [] => []
  | b :: rest =>
    if k ∈ b.items then incItems k b rest else b :: incrementList k rest

/-- The eviction walk of Go `Evict` (lines 124–144): repeatedly take
members from the front bucket (Go map range order determinised to list
order), deleting each from the key index, until `remaining` items were
removed or the list is empty; a bucket emptied by the walk is removed. -/
def evictLoop (buckets : List FreqNode) (kv : List (String × α)) (remaining : Nat) :
    List FreqNode × List (String × α) :=
  match buckets with
  | [] => ([], kv)
  | b :: rest =>
    if remaining = 0 then (b :: rest, kv)
    else
      let tk := min remaining b.items.length
      let removedKeys := b.items.take tk
      let kv' := kv.filter (fun p => decide (p.1 ∉ removedKeys))
      let items' := b.items.drop tk
      if items' = [] then evictLoop rest kv' (remaining - tk)
      else (⟨b.freq, items'⟩ :: rest, kv')

/-- Go `Evict(n)`: no-op for `n ≤ 0`, otherwise the eviction walk. -/
def evict (c : Cache α) (n : Int) : Cache α :=
  if n ≤ 0 then c
  else
    let r := evictLoop c.freqList c.kv n.toNat
    { c with freqList := r.1, kv := r.2 }

/-- The unlocked capacity test at the top of Go `Set`
(`c.cap > 0 && len(c.kv) >= c.cap`). -/
def setCheck (c : Cache α) : Bool :=
  decide (0 < c.cap ∧ c.cap ≤ (c.kv.length : Int))

/-- The locked body of Go `Set` (lines 57–94): update value and
increment when the key is present, otherwise place a new item in the
frequency-1 bucket and index it. -/
def setBody (c : Cache α) (k : String) (v : α) : Cache α :=
  match mapLookup c.kv k with
  | some _ =>
    { c with kv := mapUpdate c.kv k v, freqList := incrementList k c.freqList }
  | none =>
    { c with kv := c.kv ++ [(k, v)], freqList := placeNewList k c.freqList }

/-- Go `Set(k, v)`: capacity check, `Evict(1)` when full, then the
locked body. -/
def set (c : Cache α) (k : String) (v : α) : Cache α :=
  setBody (if setCheck c then evict c 1 else c) k v

/-- Go `Get(k)`: `(none, unchanged)` on a miss; on a hit return the
value and increment the item's frequency. -/
def get (c : Cache α) (k : String) : Option α × Cache α :=
  match mapLookup c.kv k with
  | none => (none, c)
  | some v => (some v, { c with freqList := incrementList k c.freqList })

/-- Go `Size()`: number of entries in the key index. -/
def size (c : Cache α) : Nat :=
  c.kv.length

/-- One public cache operation. -/
inductive Op (α : Type) where
  | setOp : String → α → Op α
  | getOp : String → Op α
  | evictOp : Int → Op α

/-- Apply one operation to the cache (the value returned by `Get` is
discarded; only the state matters here). -/
def applyOp (c : Cache α) : Op α → Cache α
  | .setOp k v => set c k v
  | .getOp k => (get c k).2
  | .evictOp n => evict c n

/-- Run a sequence of operations. -/
def runOps (c : Cache α) : List (Op α) → Cache α
  | [] => c
  | op :: rest => runOps (applyOp c op) rest

/-- Run a sequence of `Set` calls. -/
def setAll (c : Cache α) : List (String × α) → Cache α
  | [] => c
  | p :: rest => setAll (set c p.1 p.2) rest

/-!
Concurrency model for `Set`.  In the Go source the capacity test at the
top of `Set` runs before `c.Lock()` is taken, `c.Evict(1)` acquires and
releases the mutex itself, and the insertion acquires the mutex again:
one `Set` call is three separately-atomic sections, not one.  A thread
executing `Set(k, v)` is modelled by a program counter: step 0 performs
the unlocked capacity test and records its outcome, step 1 performs the
`Evict(1)` call when the test was positive, step 2 performs the locked
body.  Each step is atomic (the mutex, or a single read); a schedule
interleaves the steps of two threads.
-/

/-- Thread-local state of one in-flight `Set` call: program counter and
the recorded outcome of the capacity test. -/
structure ThreadSt where
  pc : Nat
  doEvict : Bool
  deriving DecidableEq

/-- Run one atomic step of a thread executing `Set k v`. -/
def stepThread (k : String) (v : α) (c : Cache α) (t : ThreadSt) :
    Cache α × ThreadSt :=
  match t.pc with
  | 0 => (c, ⟨1, setCheck c⟩)
  | 1 => ((if t.doEvict then evict c 1 else c), ⟨2, t.doEvict⟩)
  | 2 => (setBody c k v, ⟨3, t.doEvict⟩)
  | _ => (c, t)

/-- Interleave two `Set` calls according to a schedule: `false` steps
the first thread (`Set k₁ v₁`), `true` steps the second (`Set k₂ v₂`). -/
def runTwoSets (k₁ : String) (v₁ : α) (k₂ : String) (v₂ : α) :
    List Bool → Cache α × ThreadSt × ThreadSt → Cache α × ThreadSt × ThreadSt
  | [], s => s
  | w :: sched, (c, t₁, t₂) =>
    if w then
      let r := stepThread k₂ v₂ c t₂
      runTwoSets k₁ v₁ k₂ v₂ sched (r.1, t₁, r.2)
    else
      let r := stepThread k₁ v₁ c t₁
      runTwoSets k₁ v₁ k₂ v₂ sched (r.1, r.2, t₂)

/-- Initial interleaving state: both threads before their capacity
check. -/
def twoSetsInit (c : Cache α) : Cache α × ThreadSt × ThreadSt :=
  (c, ⟨0, false⟩, ⟨0, false⟩)

/-- The structural invariant relating a bucket list and a key index:
bucket frequencies strictly increase from head to tail and are at least
1, no bucket is empty, no key appears twice across buckets or twice in
the key index, and the key index and the buckets hold exactly the same
keys. -/
def PartsInv (bs : List FreqNode) (kv : List (String × α)) : Prop :=
  List.Chain' (· < ·) (bs.map FreqNode.freq) ∧
  (∀ b ∈ bs, 1 ≤ b.freq) ∧
  (∀ b ∈ bs, b.items ≠ []) ∧
  (bucketKeys bs).Nodup ∧
  (kvKeys kv).Nodup ∧
  (∀ k ∈ kvKeys kv, k ∈ bucketKeys bs) ∧
  (∀ k ∈ bucketKeys bs, k ∈ kvKeys kv)

/-- The structural invariant of the cache. -/
def Inv (c : Cache α) : Prop :=
  PartsInv c.freqList c.kv

/-- Executable strict-ascending test, used only to give `Chain' (· < ·)`
a `Decidable` instance that evaluates by reduction. -/
def chainLtBool : List Int → Bool
  | [] => true
  | [_] => true
  | a :: b :: rest => decide (a < b) && chainLtBool (b :: rest)

theorem chainLtBool_iff : ∀ l : List Int, chainLtBool l = true ↔ List.Chain' (· < ·) l
  | [] => by simp [chainLtBool]
  | [a] => by simp [chainLtBool]
  | a :: b :: rest => by
    rw [chainLtBool, List.chain'_cons, Bool.and_eq_true, decide_eq_true_eq,
      chainLtBool_iff (b :: rest)]

instance instDecChainLtInt (l : List Int) : Decidable (List.Chain' (· < ·) l) :=
  decidable_of_iff (chainLtBool l = true) (chainLtBool_iff l)

instance (bs : List FreqNode) (kv : List (String × α)) : Decidable (PartsInv bs kv) :=
  inferInstanceAs (Decidable (_ ∧ _ ∧ _ ∧ _ ∧ _ ∧ _ ∧ _))

instance (c : Cache α) : Decidable (Inv c) :=
  inferInstanceAs (Decidable (PartsInv c.freqList c.kv))

/-! ### Lemmas about the key index -/

theorem kvKeys_cons (p : String × α) (rest : List (String × α)) :
    kvKeys (p :: rest) = p.1 :: kvKeys rest := rfl

theorem mapLookup_eq_none_iff (kv : List (String × α)) (k : String) :
    mapLookup kv k = none ↔ k ∉ kvKeys kv := by
  induction kv with
  | nil => simp [mapLookup, kvKeys]
  | cons p rest ih =>
    by_cases h : p.1 = k
    · simp [mapLookup, h, kvKeys_cons]
    · simp only [mapLookup, if_neg h, kvKeys_cons, List.mem_cons, ih]
      constructor
      · rintro hn (rfl | hm)
        · exact h rfl
        · exact hn hm
      · intro hn hm
        exact hn (Or.inr hm)

theorem mem_kvKeys_of_mapLookup_eq_some {kv : List (String × α)} {k : String} {v : α}
    (h : mapLookup kv k = some v) : k ∈ kvKeys kv := by
  by_contra hk
  rw [← mapLookup_eq_none_iff] at hk
  simp [hk] at h

theorem kvKeys_mapUpdate (kv : List (String × α)) (k : String) (v : α) :
    kvKeys (mapUpdate kv k v) = kvKeys kv := by
  induction kv with
  | nil => rfl
  | cons p rest ih =>
    by_cases h : p.1 = k
    · simp [mapUpdate, h, kvKeys_cons, ih]
    · simp [mapUpdate, h, kvKeys_cons, ih]

theorem length_mapUpdate (kv : List (String × α)) (k : String) (v : α) :
    (mapUpdate kv k v).length = kv.length := by
  induction kv with
  | nil => rfl
  | cons p rest ih =>
    by_cases h : p.1 = k <;> simp [mapUpdate, h, ih]

theorem kvKeys_append_single (kv : List (String × α)) (k : String) (v : α) :
    kvKeys (kv ++ [(k, v)]) = kvKeys kv ++ [k] := by
  simp [kvKeys]

theorem kvKeys_filter (f : String → Bool) (kv : List (String × α)) :
    kvKeys (kv.filter (fun p => f p.1)) = (kvKeys kv).filter f := by
  induction kv with
  | nil => rfl
  | cons p rest ih =>
    rw [kvKeys_cons, List.filter_cons, List.filter_cons]
    cases hf : f p.1
    · simp [hf, ih]
    · simp [hf, kvKeys_cons, ih]

theorem mem_kvKeys_filter (kv : List (String × α)) (rk : List String) (j : String) :
    j ∈ kvKeys (kv.filter (fun p => decide (p.1 ∉ rk))) ↔
      j ∈ kvKeys kv ∧ j ∉ rk := by
  rw [kvKeys_filter (fun j => decide (j ∉ rk))]
  simp [List.mem_filter]

/-! ### Lemmas about `eraseKey` -/

theorem eraseKey_sublist (k : String) (l : List String) : (eraseKey k l).Sublist l := by
  induction l with
  | nil => simp [eraseKey]
  | cons x rest ih =>
    by_cases h : x = k
    · rw [eraseKey, if_pos h]
      exact List.sublist_cons_self x rest
    · rw [eraseKey, if_neg h]
      exact ih.cons₂ x

theorem mem_eraseKey_of_ne {j k : String} (hne : j ≠ k) (l : List String) :
    j ∈ eraseKey k l ↔ j ∈ l := by
  induction l with
  | nil => simp [eraseKey]
  | cons x rest ih =>
    by_cases h : x = k
    · subst h
      simp [eraseKey, List.mem_cons, ih, (Ne.symm hne), hne]
    · simp [eraseKey, h, List.mem_cons, ih]

theorem perm_cons_eraseKey {k : String} {l : List String} (h : k ∈ l) :
    l.Perm (k :: eraseKey k l) := by
  induction l with
  | nil => cases h
  | cons x rest ih =>
    by_cases hx : x = k
    · subst hx
      simp [eraseKey]
    · have hk : k ∈ rest := by
        rcases List.mem_cons.mp h with h' | h'
        · exact absurd h'.symm hx
        · exact h'
      have h1 : (x :: rest).Perm (x :: k :: eraseKey k rest) := (ih hk).cons x
      have h2 : (x :: k :: eraseKey k rest).Perm (k :: x :: eraseKey k rest) :=
        List.Perm.swap k x (eraseKey k rest)
      have h3 : k :: x :: eraseKey k rest = k :: eraseKey k (x :: rest) := by
        simp [eraseKey, hx]
      exact h1.trans (h3 ▸ h2)

theorem not_mem_eraseKey_self {k : String} {l : List String} (h : l.Nodup) :
    k ∉ eraseKey k l := by
  induction l with
  | nil => simp [eraseKey]
  | cons x rest ih =>
    rcases List.nodup_cons.mp h with ⟨hx, hrest⟩
    by_cases hxk : x = k
    · subst hxk
      simp only [eraseKey, if_pos rfl]
      exact hx
    · simp only [eraseKey, if_neg hxk, List.mem_cons]
      rintro (rfl | hm)
      · exact hxk rfl
      · exact ih hrest hm

theorem length_eraseKey {k : String} {l : List String} (h : k ∈ l) :
    (eraseKey k l).length + 1 = l.length := by
  have := (perm_cons_eraseKey h).length_eq
  simpa [Nat.add_comm] using this.symm

/-! ### Lemmas about `bucketKeys`, `sumItems` and `freqOf` -/

theorem bucketKeys_cons (b : FreqNode) (rest : List FreqNode) :
    bucketKeys (b :: rest) = b.items ++ bucketKeys rest := rfl

theorem bucketKeys_append (l₁ l₂ : List FreqNode) :
    bucketKeys (l₁ ++ l₂) = bucketKeys l₁ ++ bucketKeys l₂ := by
  induction l₁ with
  | nil => rfl
  | cons b rest ih => simp [bucketKeys_cons, ih, List.append_assoc]

theorem sumItems_eq_length_bucketKeys (l : List FreqNode) :
    sumItems l = (bucketKeys l).length := by
  induction l with
  | nil => rfl
  | cons b rest ih => simp [sumItems, bucketKeys_cons, ih]

theorem mem_bucketKeys_iff (l : List FreqNode) (j : String) :
    j ∈ bucketKeys l ↔ ∃ b ∈ l, j ∈ b.items := by
  induction l with
  | nil => simp [bucketKeys]
  | cons b rest ih =>
    simp only [bucketKeys_cons, List.mem_append, ih, List.mem_cons]
    constructor
    · rintro (h | ⟨b', hb', hj⟩)
      · exact ⟨b, Or.inl rfl, h⟩
      · exact ⟨b', Or.inr hb', hj⟩
    · rintro ⟨b', (rfl | hb'), hj⟩
      · exact Or.inl hj
      · exact Or.inr ⟨b', hb', hj⟩

theorem freqOf_cons_of_mem {b : FreqNode} {j : String} (rest : List FreqNode)
    (h : j ∈ b.items) : freqOf (b :: rest) j = b.freq := by
  simp [freqOf, h]

theorem freqOf_cons_of_not_mem {b : FreqNode} {j : String} (rest : List FreqNode)
    (h : j ∉ b.items) : freqOf (b :: rest) j = freqOf rest j := by
  simp [freqOf, h]

theorem freqOf_append_of_not_mem {p : List FreqNode} {j : String}
    (hp : ∀ b ∈ p, j ∉ b.items) (X : List FreqNode) :
    freqOf (p ++ X) j = freqOf X j := by
  induction p with
  | nil => rfl
  | cons b rest ih =>
    have hb : j ∉ b.items := hp b (List.mem_cons_self b rest)
    simp only [List.cons_append, freqOf, if_neg hb]
    exact ih fun b' hb' => hp b' (List.mem_cons_of_mem b hb')

theorem head_freq_le_freqOf (b : FreqNode) (rest : List FreqNode)
    (hchain : List.Chain' (· < ·) ((b :: rest).map FreqNode.freq)) (j : String)
    (hj : j ∈ bucketKeys (b :: rest)) : b.freq ≤ freqOf (b :: rest) j := by
  induction rest generalizing b with
  | nil =>
    have : j ∈ b.items := by simpa [bucketKeys_cons, bucketKeys] using hj
    simp [freqOf, this]
  | cons b' r' ih =>
    by_cases hb : j ∈ b.items
    · simp [freqOf, hb]
    · have hj' : j ∈ bucketKeys (b' :: r') := by
        rw [bucketKeys_cons] at hj
        rcases List.mem_append.mp hj with h | h
        · exact absurd h hb
        · exact h
      have hlt : b.freq < b'.freq := by
        have := hchain
        simp only [List.map_cons, List.chain'_cons] at this
        exact this.1
      have hchain' : List.Chain' (· < ·) ((b' :: r').map FreqNode.freq) := by
        have := hchain
        simp only [List.map_cons, List.chain'_cons] at this
        simpa [List.map_cons] using this.2
      rw [freqOf_cons_of_not_mem _ hb]
      exact le_of_lt (lt_of_lt_of_le hlt (ih b' hchain' hj'))

/-! ### Counting removed keys -/

theorem length_filter_not_mem {l rk : List String} (hl : l.Nodup) (hrk : rk.Nodup)
    (hsub : ∀ j ∈ rk, j ∈ l) :
    l.length = rk.length + (l.filter (fun j => decide (j ∉ rk))).length := by
  have hnd : (rk ++ l.filter (fun j => decide (j ∉ rk))).Nodup := by
    rw [List.nodup_append]
    refine ⟨hrk, List.Nodup.sublist (List.filter_sublist l) hl, ?_⟩
    intro a ha hb
    have := (List.mem_filter.mp hb).2
    simp only [decide_eq_true_eq] at this
    exact this ha
  have hperm : l.Perm (rk ++ l.filter (fun j => decide (j ∉ rk))) := by
    rw [List.perm_ext_iff_of_nodup hl hnd]
    intro a
    simp only [List.mem_append, List.mem_filter, decide_eq_true_eq]
    constructor
    · intro ha
      by_cases h : a ∈ rk
      · exact Or.inl h
      · exact Or.inr ⟨ha, h⟩
    · rintro (h | ⟨ha, _⟩)
      · exact hsub a h
      · exact ha
  simpa using hperm.length_eq

/-! ### Step lemmas for the eviction walk -/

theorem evictLoop_nil (kv : List (String × α)) (r : Nat) :
    evictLoop [] kv r = ([], kv) := rfl

theorem evictLoop_zero (b : FreqNode) (rest : List FreqNode) (kv : List (String × α)) :
    evictLoop (b :: rest) kv 0 = (b :: rest, kv) := rfl

theorem evictLoop_cons (b : FreqNode) (rest : List FreqNode) (kv : List (String × α))
    (r : Nat) (hr : r ≠ 0) :
    evictLoop (b :: rest) kv r =
      if b.items.drop (min r b.items.length) = [] then
        evictLoop rest
          (kv.filter (fun p => decide (p.1 ∉ b.items.take (min r b.items.length))))
          (r - min r b.items.length)
      else
        (⟨b.freq, b.items.drop (min r b.items.length)⟩ :: rest,
          kv.filter (fun p => decide (p.1 ∉ b.items.take (min r b.items.length)))) := by
  simp [evictLoop, hr]

theorem partsInv_evict_keepFront {b : FreqNode} {rest : List FreqNode}
    {kv : List (String × α)} {tk : Nat} (hInv : PartsInv (b :: rest) kv)
    (hd : b.items.drop tk ≠ []) :
    PartsInv (⟨b.freq, b.items.drop tk⟩ :: rest)
      (kv.filter (fun p => decide (p.1 ∉ b.items.take tk))) := by
  obtain ⟨h1, h2, h3, h4, h5, h6, h7⟩ := hInv
  rw [bucketKeys_cons] at h4 h6 h7
  have hbn : b.items.Nodup := List.Nodup.sublist (List.sublist_append_left _ _) h4
  have hdisj : ∀ j ∈ b.items, j ∉ bucketKeys rest := fun j hj hr =>
    (List.nodup_append.mp h4).2.2 hj hr
  have htd : b.items.take tk ++ b.items.drop tk = b.items := List.take_append_drop tk b.items
  have htdn : (b.items.take tk ++ b.items.drop tk).Nodup := by rw [htd]; exact hbn
  have hdisj2 : ∀ j ∈ b.items.drop tk, j ∉ b.items.take tk := by
    intro j hj hjt
    exact (List.nodup_append.mp htdn).2.2 hjt hj
  refine ⟨?_, ?_, ?_, ?_, ?_, ?_, ?_⟩
  · simpa using h1
  · intro b' hb'
    rcases List.mem_cons.mp hb' with rfl | hb'
    · exact h2 b (List.mem_cons_self b rest)
    · exact h2 b' (List.mem_cons_of_mem b hb')
  · intro b' hb'
    rcases List.mem_cons.mp hb' with rfl | hb'
    · exact hd
    · exact h3 b' (List.mem_cons_of_mem b hb')
  · rw [bucketKeys_cons]
    have hsub : (b.items.drop tk ++ bucketKeys rest).Sublist (b.items ++ bucketKeys rest) :=
      (List.drop_sublist tk b.items).append_right (bucketKeys rest)
    exact List.Nodup.sublist hsub h4
  · rw [kvKeys_filter (fun j => decide (j ∉ b.items.take tk))]
    exact List.Nodup.sublist (List.filter_sublist _) h5
  · intro j hj
    rw [mem_kvKeys_filter] at hj
    obtain ⟨hjkv, hjt⟩ := hj
    rw [bucketKeys_cons]
    rcases List.mem_append.mp (h6 j hjkv) with hjb | hjr
    · rw [← htd] at hjb
      rcases List.mem_append.mp hjb with h | h
      · exact absurd h hjt
      · exact List.mem_append.mpr (Or.inl h)
    · exact List.mem_append.mpr (Or.inr hjr)
  · intro j hj
    rw [bucketKeys_cons] at hj
    rw [mem_kvKeys_filter]
    rcases List.mem_append.mp hj with hjd | hjr
    · exact ⟨h7 j (List.mem_append.mpr (Or.inl ((List.drop_sublist tk b.items).subset hjd))),
        hdisj2 j hjd⟩
    · refine ⟨h7 j (List.mem_append.mpr (Or.inr hjr)), ?_⟩
      intro hjt
      exact hdisj j ((List.take_sublist tk b.items).subset hjt) hjr

theorem partsInv_evict_full {b : FreqNode} {rest : List FreqNode}
    {kv : List (String × α)} {tk : Nat} (hInv : PartsInv (b :: rest) kv)
    (hd : b.items.drop tk = []) :
    PartsInv rest (kv.filter (fun p => decide (p.1 ∉ b.items.take tk))) := by
  obtain ⟨h1, h2, h3, h4, h5, h6, h7⟩ := hInv
  rw [bucketKeys_cons] at h4 h6 h7
  have hdisj : ∀ j ∈ b.items, j ∉ bucketKeys rest := fun j hj hr =>
    (List.nodup_append.mp h4).2.2 hj hr
  have hlen : b.items.length ≤ tk := by
    by_contra hlt
    push_neg at hlt
    have := List.drop_eq_nil_iff.mp hd
    omega
  have htake : b.items.take tk = b.items := List.take_of_length_le hlen
  rw [htake]
  refine ⟨?_, ?_, ?_, ?_, ?_, ?_, ?_⟩
  · exact (List.chain'_cons'.mp (by simpa using h1)).2
  · intro b' hb'
    exact h2 b' (List.mem_cons_of_mem b hb')
  · intro b' hb'
    exact h3 b' (List.mem_cons_of_mem b hb')
  · exact (List.nodup_append.mp h4).2.1
  · rw [kvKeys_filter (fun j => decide (j ∉ b.items))]
    exact List.Nodup.sublist (List.filter_sublist _) h5
  · intro j hj
    rw [mem_kvKeys_filter] at hj
    obtain ⟨hjkv, hjb⟩ := hj
    rcases List.mem_append.mp (h6 j hjkv) with h | h
    · exact absurd h hjb
    · exact h
  · intro j hj
    rw [mem_kvKeys_filter]
    exact ⟨h7 j (List.mem_append.mpr (Or.inr hj)), fun hjb => hdisj j hjb hj⟩

theorem evictLoop_kv_sublist (bs : List FreqNode) (kv : List (String × α)) (r : Nat) :
    ((evictLoop bs kv r).2).Sublist kv := by
  induction bs generalizing kv r with
  | nil => simp [evictLoop_nil]
  | cons b rest ih =>
    rcases Nat.eq_zero_or_pos r with rfl | hr
    · simp [evictLoop_zero]
    · rw [evictLoop_cons _ _ _ _ (Nat.pos_iff_ne_zero.mp hr)]
      by_cases hd : b.items.drop (min r b.items.length) = []
      · rw [if_pos hd]
        exact (ih _ _).trans (List.filter_sublist kv)
      · rw [if_neg hd]
        exact List.filter_sublist kv

theorem partsInv_evictLoop {bs : List FreqNode} {kv : List (String × α)} (r : Nat)
    (hInv : PartsInv bs kv) :
    PartsInv (evictLoop bs kv r).1 (evictLoop bs kv r).2 := by
  induction bs generalizing kv r with
  | nil => simpa [evictLoop_nil] using hInv
  | cons b rest ih =>
    rcases Nat.eq_zero_or_pos r with rfl | hr
    · simpa [evictLoop_zero] using hInv
    · rw [evictLoop_cons _ _ _ _ (Nat.pos_iff_ne_zero.mp hr)]
      by_cases hd : b.items.drop (min r b.items.length) = []
      · rw [if_pos hd]
        exact ih _ (partsInv_evict_full hInv hd)
      · rw [if_neg hd]
        exact partsInv_evict_keepFront hInv hd

theorem evictLoop_length {bs : List FreqNode} {kv : List (String × α)} (r : Nat)
    (hInv : PartsInv bs kv) :
    (evictLoop bs kv r).2.length = kv.length - min r (sumItems bs) := by
  induction bs generalizing kv r with
  | nil => simp [evictLoop_nil, sumItems]
  | cons b rest ih =>
    rcases Nat.eq_zero_or_pos r with rfl | hr
    · simp [evictLoop_zero]
    · rw [evictLoop_cons _ _ _ _ (Nat.pos_iff_ne_zero.mp hr)]
      obtain ⟨h1, h2, h3, h4, h5, h6, h7⟩ := hInv
      have hbn : b.items.Nodup := by
        rw [bucketKeys_cons] at h4
        exact List.Nodup.sublist (List.sublist_append_left _ _) h4
      have hrkn : (b.items.take (min r b.items.length)).Nodup :=
        List.Nodup.sublist (List.take_sublist _ _) hbn
      have hrksub : ∀ j ∈ b.items.take (min r b.items.length), j ∈ kvKeys kv := by
        intro j hj
        apply h7
        rw [bucketKeys_cons]
        exact List.mem_append.mpr (Or.inl ((List.take_sublist _ _).subset hj))
      have hcount := length_filter_not_mem h5 hrkn hrksub
      have hkvlen : (kvKeys kv).length = kv.length := List.length_map _ _
      have hrklen : (b.items.take (min r b.items.length)).length = min r b.items.length := by
        rw [List.length_take]
        omega
      have hkv' :
          (kv.filter (fun p => decide (p.1 ∉ b.items.take (min r b.items.length)))).length =
            kv.length - min r b.items.length := by
        have heq := kvKeys_filter (fun j => decide (j ∉ b.items.take (min r b.items.length))) kv
        have hlen2 :
            (kv.filter (fun p => decide (p.1 ∉ b.items.take (min r b.items.length)))).length =
              ((kvKeys kv).filter
                (fun j => decide (j ∉ b.items.take (min r b.items.length)))).length := by
          rw [← heq]
          exact (List.length_map _ _).symm
        omega
      by_cases hd : b.items.drop (min r b.items.length) = []
      · rw [if_pos hd]
        have htklen : b.items.length ≤ min r b.items.length := List.drop_eq_nil_iff.mp hd
        have hInv' : PartsInv rest
            (kv.filter (fun p => decide (p.1 ∉ b.items.take (min r b.items.length)))) :=
          partsInv_evict_full ⟨h1, h2, h3, h4, h5, h6, h7⟩ hd
        rw [ih _ hInv', hkv']
        simp only [sumItems]
        omega
      · rw [if_neg hd]
        have hdl : ¬ b.items.length ≤ min r b.items.length := fun hle =>
          hd (List.drop_eq_nil_iff.mpr hle)
        simp only []
        rw [hkv']
        simp only [sumItems]
        omega

theorem evictLoop_buckets_nil {bs : List FreqNode} (kv : List (String × α)) (r : Nat)
    (hne : ∀ b ∈ bs, b.items ≠ []) (hr : sumItems bs ≤ r) :
    (evictLoop bs kv r).1 = [] := by
  induction bs generalizing kv r with
  | nil => simp [evictLoop_nil]
  | cons b rest ih =>
    have hbne : b.items ≠ [] := hne b (List.mem_cons_self b rest)
    have hblen : 1 ≤ b.items.length := List.length_pos.mpr hbne
    have hsum : sumItems (b :: rest) = b.items.length + sumItems rest := rfl
    have hrpos : r ≠ 0 := by omega
    rw [evictLoop_cons _ _ _ _ hrpos]
    have htk : min r b.items.length = b.items.length := by omega
    have hd : b.items.drop (min r b.items.length) = [] := by
      rw [htk]
      exact List.drop_eq_nil_iff.mpr le_rfl
    rw [if_pos hd]
    apply ih
    · intro b' hb'
      exact hne b' (List.mem_cons_of_mem b hb')
    · omega

theorem partsInv_sumItems_eq {bs : List FreqNode} {kv : List (String × α)}
    (hInv : PartsInv bs kv) : sumItems bs = kv.length := by
  obtain ⟨_, _, _, h4, h5, h6, h7⟩ := hInv
  have hperm : (bucketKeys bs).Perm (kvKeys kv) := by
    rw [List.perm_ext_iff_of_nodup h4 h5]
    intro a
    exact ⟨fun h => h7 a h, fun h => h6 a h⟩
  rw [sumItems_eq_length_bucketKeys, hperm.length_eq]
  exact List.length_map _ _

theorem evictLoop_one_kv {b : FreqNode} (rest : List FreqNode) (kv : List (String × α))
    {x : String} {xs : List String} (hb : b.items = x :: xs) :
    (evictLoop (b :: rest) kv 1).2 = kv.filter (fun p => decide (p.1 ∉ [x])) := by
  have hmin : min 1 b.items.length = 1 := by
    rw [hb]
    simp
  have htake : b.items.take (min 1 b.items.length) = [x] := by
    rw [hmin, hb]
    rfl
  have hdrop : b.items.drop (min 1 b.items.length) = xs := by
    rw [hmin, hb]
    rfl
  rw [evictLoop_cons _ _ _ _ one_ne_zero, htake, hdrop, hmin]
  by_cases hxs : xs = []
  · rw [if_pos hxs]
    cases rest with
    | nil => rw [evictLoop_nil]
    | cons b' rest' =>
      have : (1 : Nat) - 1 = 0 := rfl
      rw [this, evictLoop_zero]
  · rw [if_neg hxs]

theorem evictLoop_preferential {bs : List FreqNode} {kv : List (String × α)} (r : Nat)
    (hInv : PartsInv bs kv) (x y : String)
    (hx : x ∈ kvKeys kv) (hxe : x ∉ kvKeys (evictLoop bs kv r).2)
    (hy : y ∈ kvKeys (evictLoop bs kv r).2) :
    freqOf bs x ≤ freqOf bs y := by
  induction bs generalizing kv r with
  | nil =>
    rw [evictLoop_nil] at hxe
    exact absurd hx hxe
  | cons b rest ih =>
    rcases Nat.eq_zero_or_pos r with rfl | hr
    · rw [evictLoop_zero] at hxe
      exact absurd hx hxe
    · obtain ⟨h1, h2, h3, h4, h5, h6, h7⟩ := hInv
      rw [evictLoop_cons _ _ _ _ (Nat.pos_iff_ne_zero.mp hr)] at hxe hy
      by_cases hd : b.items.drop (min r b.items.length) = []
      · rw [if_pos hd] at hxe hy
        have htake : b.items.take (min r b.items.length) = b.items :=
          List.take_of_length_le (List.drop_eq_nil_iff.mp hd)
        have hyk : y ∈ kvKeys
            (kv.filter (fun p => decide (p.1 ∉ b.items.take (min r b.items.length)))) := by
          have hsub := evictLoop_kv_sublist rest
            (kv.filter (fun p => decide (p.1 ∉ b.items.take (min r b.items.length))))
            (r - min r b.items.length)
          exact (hsub.map Prod.fst).subset hy
        rw [mem_kvKeys_filter] at hyk
        obtain ⟨hykv, hynb⟩ := hyk
        rw [htake] at hynb
        have hyb : y ∈ bucketKeys (b :: rest) := h6 y hykv
        by_cases hxb : x ∈ b.items
        · rw [freqOf_cons_of_mem _ hxb]
          exact head_freq_le_freqOf b rest h1 y hyb
        · have hxk' : x ∈ kvKeys
              (kv.filter (fun p => decide (p.1 ∉ b.items.take (min r b.items.length)))) := by
            rw [mem_kvKeys_filter, htake]
            exact ⟨hx, hxb⟩
          have hInv' := partsInv_evict_full
            ⟨h1, h2, h3, h4, h5, h6, h7⟩ hd
          have hyr : y ∉ b.items := hynb
          rw [freqOf_cons_of_not_mem _ hxb, freqOf_cons_of_not_mem _ hyr]
          exact ih _ hInv' hxk' hxe hy
      · rw [if_neg hd] at hxe hy
        simp only [] at hxe hy
        rw [mem_kvKeys_filter] at hxe hy
        push_neg at hxe
        have hxrk : x ∈ b.items.take (min r b.items.length) := hxe hx
        have hxb : x ∈ b.items := (List.take_sublist _ _).subset hxrk
        rw [freqOf_cons_of_mem _ hxb]
        exact head_freq_le_freqOf b rest h1 y (h6 y hy.1)

/-! ### Lemmas about `increment` -/

theorem incItems_nil (k : String) (curr : FreqNode) :
    incItems k curr [] =
      if eraseKey k curr.items = [] then [⟨curr.freq + 1, [k]⟩]
      else [⟨curr.freq, eraseKey k curr.items⟩, ⟨curr.freq + 1, [k]⟩] := rfl

theorem incItems_cons (k : String) (curr nb : FreqNode) (rest' : List FreqNode) :
    incItems k curr (nb :: rest') =
      if nb.freq = curr.freq + 1 then
        if eraseKey k curr.items = [] then ⟨nb.freq, nb.items ++ [k]⟩ :: rest'
        else ⟨curr.freq, eraseKey k curr.items⟩ :: ⟨nb.freq, nb.items ++ [k]⟩ :: rest'
      else
        if eraseKey k curr.items = [] then ⟨curr.freq + 1, [k]⟩ :: nb :: rest'
        else ⟨curr.freq, eraseKey k curr.items⟩ :: ⟨curr.freq + 1, [k]⟩ :: nb :: rest' := rfl

theorem exists_decomp_of_mem_bucketKeys {l : List FreqNode} {k : String}
    (h : k ∈ bucketKeys l) :
    ∃ p curr rest, l = p ++ curr :: rest ∧ k ∈ curr.items ∧ ∀ b ∈ p, k ∉ b.items := by
  induction l with
  | nil => cases h
  | cons b rest ih =>
    by_cases hb : k ∈ b.items
    · exact ⟨[], b, rest, rfl, hb, by simp⟩
    · rw [bucketKeys_cons] at h
      rcases List.mem_append.mp h with h' | h'
      · exact absurd h' hb
      · obtain ⟨p, curr, rest', heq, hc, hp⟩ := ih h'
        refine ⟨b :: p, curr, rest', by rw [heq]; rfl, hc, ?_⟩
        intro b' hb'
        rcases List.mem_cons.mp hb' with rfl | hb'
        · exact hb
        · exact hp b' hb'

theorem incrementList_append {k : String} {p : List FreqNode} {curr : FreqNode}
    {rest : List FreqNode} (hp : ∀ b ∈ p, k ∉ b.items) (hc : k ∈ curr.items) :
    incrementList k (p ++ curr :: rest) = p ++ incItems k curr rest := by
  induction p with
  | nil => simp [incrementList, hc]
  | cons b p' ih =>
    have hb : k ∉ b.items := hp b (List.mem_cons_self b p')
    simp only [List.cons_append, incrementList, if_neg hb]
    exact congrArg (b :: ·) (ih (fun b' hb' => hp b' (List.mem_cons_of_mem b hb')))

theorem incrementList_of_not_mem {k : String} {l : List FreqNode}
    (h : k ∉ bucketKeys l) : incrementList k l = l := by
  induction l with
  | nil => rfl
  | cons b rest ih =>
    rw [bucketKeys_cons] at h
    have hb : k ∉ b.items := fun hm => h (List.mem_append.mpr (Or.inl hm))
    have hr : k ∉ bucketKeys rest := fun hm => h (List.mem_append.mpr (Or.inr hm))
    simp only [incrementList, if_neg hb]
    rw [ih hr]

theorem bucketKeys_incItems_perm {k : String} {curr : FreqNode} (rest : List FreqNode)
    (hc : k ∈ curr.items) :
    (bucketKeys (incItems k curr rest)).Perm (bucketKeys (curr :: rest)) := by
  have hperm : curr.items.Perm (k :: eraseKey k curr.items) := perm_cons_eraseKey hc
  cases rest with
  | nil =>
    rw [incItems_nil]
    by_cases hrem : eraseKey k curr.items = []
    · rw [if_pos hrem]
      rw [hrem] at hperm
      simp only [bucketKeys_cons, bucketKeys, List.append_nil]
      exact hperm.symm
    · rw [if_neg hrem]
      simp only [bucketKeys_cons, bucketKeys, List.append_nil]
      exact (List.perm_append_singleton k _).trans hperm.symm
  | cons nb rest' =>
    rw [incItems_cons]
    have hshape :
        ∀ X : List FreqNode, bucketKeys (curr :: X) = curr.items ++ bucketKeys X :=
      fun X => bucketKeys_cons curr X
    by_cases hf : nb.freq = curr.freq + 1
    · rw [if_pos hf]
      by_cases hrem : eraseKey k curr.items = []
      · rw [if_pos hrem]
        rw [hrem] at hperm
        simp only [bucketKeys_cons]
        have h1 : ((nb.items ++ [k]) ++ bucketKeys rest').Perm
            ((k :: nb.items) ++ bucketKeys rest') :=
          (List.perm_append_singleton k nb.items).append_right _
        have h2 : (curr.items ++ (nb.items ++ bucketKeys rest')).Perm
            ([k] ++ (nb.items ++ bucketKeys rest')) :=
          hperm.append_right _
        exact h1.trans h2.symm
      · rw [if_neg hrem]
        simp only [bucketKeys_cons]
        have h1 : (eraseKey k curr.items ++ ((nb.items ++ [k]) ++ bucketKeys rest')).Perm
            (eraseKey k curr.items ++ ((k :: nb.items) ++ bucketKeys rest')) :=
          List.Perm.append_left _ ((List.perm_append_singleton k nb.items).append_right _)
        have h2 : (eraseKey k curr.items ++ ((k :: nb.items) ++ bucketKeys rest')) =
            eraseKey k curr.items ++ (k :: (nb.items ++ bucketKeys rest')) := rfl
        have h3 : (eraseKey k curr.items ++ (k :: (nb.items ++ bucketKeys rest'))).Perm
            (k :: (eraseKey k curr.items ++ (nb.items ++ bucketKeys rest'))) :=
          List.perm_middle
        have h4 : (curr.items ++ (nb.items ++ bucketKeys rest')).Perm
            (k :: (eraseKey k curr.items ++ (nb.items ++ bucketKeys rest'))) := by
          have := hperm.append_right (nb.items ++ bucketKeys rest')
          exact this
        exact ((h1.trans (h2 ▸ h3))).trans h4.symm
    · rw [if_neg hf]
      by_cases hrem : eraseKey k curr.items = []
      · rw [if_pos hrem]
        rw [hrem] at hperm
        simp only [bucketKeys_cons]
        exact (hperm.append_right (nb.items ++ bucketKeys rest')).symm
      · rw [if_neg hrem]
        simp only [bucketKeys_cons]
        have h1 : (eraseKey k curr.items ++ ([k] ++ (nb.items ++ bucketKeys rest'))) =
            eraseKey k curr.items ++ (k :: (nb.items ++ bucketKeys rest')) := rfl
        have h3 : (eraseKey k curr.items ++ (k :: (nb.items ++ bucketKeys rest'))).Perm
            (k :: (eraseKey k curr.items ++ (nb.items ++ bucketKeys rest'))) :=
          List.perm_middle
        have h4 : (curr.items ++ (nb.items ++ bucketKeys rest')).Perm
            (k :: (eraseKey k curr.items ++ (nb.items ++ bucketKeys rest'))) :=
          hperm.append_right (nb.items ++ bucketKeys rest')
        exact (h1 ▸ h3).trans h4.symm

theorem incItems_freq_facts {k : String} {curr : FreqNode} {rest : List FreqNode}
    (hchain : List.Chain' (· < ·) ((curr :: rest).map FreqNode.freq)) :
    List.Chain' (· < ·) ((incItems k curr rest).map FreqNode.freq) ∧
      ∀ f ∈ ((incItems k curr rest).map FreqNode.freq).head?, curr.freq ≤ f := by
  cases rest with
  | nil =>
    rw [incItems_nil]
    by_cases hrem : eraseKey k curr.items = []
    · rw [if_pos hrem]
      refine ⟨by simp, ?_⟩
      intro f hf
      simp only [List.map_cons, List.map_nil, List.head?_cons, Option.mem_def,
        Option.some.injEq] at hf
      omega
    · rw [if_neg hrem]
      refine ⟨?_, ?_⟩
      · simp only [List.map_cons, List.map_nil, List.chain'_cons, List.chain'_singleton,
          and_true]
        omega
      · intro f hf
        simp only [List.map_cons, List.head?_cons, Option.mem_def, Option.some.injEq] at hf
        omega
  | cons nb rest' =>
    have hlt : curr.freq < nb.freq := by
      simp only [List.map_cons, List.chain'_cons] at hchain
      exact hchain.1
    have htail : List.Chain' (· < ·) (nb.freq :: rest'.map FreqNode.freq) := by
      simp only [List.map_cons, List.chain'_cons] at hchain
      exact hchain.2
    rw [incItems_cons]
    by_cases hf : nb.freq = curr.freq + 1
    · rw [if_pos hf]
      by_cases hrem : eraseKey k curr.items = []
      · rw [if_pos hrem]
        refine ⟨by simpa using htail, ?_⟩
        intro f hfm
        simp only [List.map_cons, List.head?_cons, Option.mem_def, Option.some.injEq] at hfm
        omega
      · rw [if_neg hrem]
        refine ⟨?_, ?_⟩
        · simp only [List.map_cons, List.chain'_cons]
          exact ⟨by omega, by simpa using htail⟩
        · intro f hfm
          simp only [List.map_cons, List.head?_cons, Option.mem_def, Option.some.injEq] at hfm
          omega
    · rw [if_neg hf]
      have hlt2 : curr.freq + 1 < nb.freq := by
        rcases lt_or_eq_of_le (Int.add_one_le_iff.mpr hlt) with h | h
        · exact h
        · exact absurd h.symm hf
      by_cases hrem : eraseKey k curr.items = []
      · rw [if_pos hrem]
        refine ⟨?_, ?_⟩
        · simp only [List.map_cons, List.chain'_cons]
          refine ⟨hlt2, ?_⟩
          simpa using htail
        · intro f hfm
          simp only [List.map_cons, List.head?_cons, Option.mem_def, Option.some.injEq] at hfm
          omega
      · rw [if_neg hrem]
        refine ⟨?_, ?_⟩
        · simp only [List.map_cons, List.chain'_cons]
          refine ⟨by omega, hlt2, ?_⟩
          simpa using htail
        · intro f hfm
          simp only [List.map_cons, List.head?_cons, Option.mem_def, Option.some.injEq] at hfm
          omega

theorem mem_incItems_cases {k : String} {curr : FreqNode} {rest : List FreqNode}
    {b : FreqNode} (hb : b ∈ incItems k curr rest) :
    (b.freq = curr.freq ∧ b.items = eraseKey k curr.items ∧ eraseKey k curr.items ≠ []) ∨
    (b.freq = curr.freq + 1 ∧
      (b.items = [k] ∨ ∃ nb ∈ rest, nb.freq = curr.freq + 1 ∧ b.items = nb.items ++ [k])) ∨
    b ∈ rest := by
  cases rest with
  | nil =>
    rw [incItems_nil] at hb
    by_cases hrem : eraseKey k curr.items = []
    · rw [if_pos hrem] at hb
      simp only [List.mem_singleton] at hb
      subst hb
      exact Or.inr (Or.inl ⟨rfl, Or.inl rfl⟩)
    · rw [if_neg hrem] at hb
      rcases List.mem_cons.mp hb with rfl | hb
      · exact Or.inl ⟨rfl, rfl, hrem⟩
      · simp only [List.mem_singleton] at hb
        subst hb
        exact Or.inr (Or.inl ⟨rfl, Or.inl rfl⟩)
  | cons nb rest' =>
    rw [incItems_cons] at hb
    by_cases hf : nb.freq = curr.freq + 1
    · rw [if_pos hf] at hb
      by_cases hrem : eraseKey k curr.items = []
      · rw [if_pos hrem] at hb
        rcases List.mem_cons.mp hb with rfl | hb
        · exact Or.inr (Or.inl ⟨hf, Or.inr ⟨nb, List.mem_cons_self nb rest', hf, rfl⟩⟩)
        · exact Or.inr (Or.inr (List.mem_cons_of_mem nb hb))
      · rw [if_neg hrem] at hb
        rcases List.mem_cons.mp hb with rfl | hb
        · exact Or.inl ⟨rfl, rfl, hrem⟩
        · rcases List.mem_cons.mp hb with rfl | hb
          · exact Or.inr (Or.inl ⟨hf, Or.inr ⟨nb, List.mem_cons_self nb rest', hf, rfl⟩⟩)
          · exact Or.inr (Or.inr (List.mem_cons_of_mem nb hb))
    · rw [if_neg hf] at hb
      by_cases hrem : eraseKey k curr.items = []
      · rw [if_pos hrem] at hb
        rcases List.mem_cons.mp hb with rfl | hb
        · exact Or.inr (Or.inl ⟨rfl, Or.inl rfl⟩)
        · exact Or.inr (Or.inr hb)
      · rw [if_neg hrem] at hb
        rcases List.mem_cons.mp hb with rfl | hb
        · exact Or.inl ⟨rfl, rfl, hrem⟩
        · rcases List.mem_cons.mp hb with rfl | hb
          · exact Or.inr (Or.inl ⟨rfl, Or.inl rfl⟩)
          · exact Or.inr (Or.inr hb)

theorem incItems_freq_pos {k : String} {curr : FreqNode} {rest : List FreqNode}
    (hc : 1 ≤ curr.freq) (hr : ∀ b ∈ rest, 1 ≤ b.freq) :
    ∀ b ∈ incItems k curr rest, 1 ≤ b.freq := by
  intro b hb
  rcases mem_incItems_cases hb with ⟨hf, _, _⟩ | ⟨hf, _⟩ | hb'
  · omega
  · omega
  · exact hr b hb'

theorem incItems_nonempty {k : String} {curr : FreqNode} {rest : List FreqNode}
    (hr : ∀ b ∈ rest, b.items ≠ []) :
    ∀ b ∈ incItems k curr rest, b.items ≠ [] := by
  intro b hb
  rcases mem_incItems_cases hb with ⟨_, hi, hne⟩ | ⟨_, hi | ⟨nb, _, _, hi⟩⟩ | hb'
  · rw [hi]
    exact hne
  · rw [hi]
    simp
  · rw [hi]
    simp
  · exact hr b hb'

theorem bucketKeys_incrementList_perm {bs : List FreqNode} {k : String}
    (hk : k ∈ bucketKeys bs) :
    (bucketKeys (incrementList k bs)).Perm (bucketKeys bs) := by
  obtain ⟨p, curr, rest, rfl, hc, hp⟩ := exists_decomp_of_mem_bucketKeys hk
  rw [incrementList_append hp hc, bucketKeys_append, bucketKeys_append]
  exact List.Perm.append_left _ (bucketKeys_incItems_perm rest hc)

theorem partsInv_incrementList {bs : List FreqNode} {kv : List (String × α)}
    (hInv : PartsInv bs kv) {k : String} (hk : k ∈ bucketKeys bs) :
    PartsInv (incrementList k bs) kv := by
  have hperm := bucketKeys_incrementList_perm hk
  obtain ⟨p, curr, rest, heq, hc, hp⟩ := exists_decomp_of_mem_bucketKeys hk
  obtain ⟨h1, h2, h3, h4, h5, h6, h7⟩ := hInv
  subst heq
  rw [incrementList_append hp hc] at hperm ⊢
  refine ⟨?_, ?_, ?_, ?_, h5, ?_, ?_⟩
  · rw [List.map_append, List.chain'_append] at h1 ⊢
    obtain ⟨hcp, hcc, hlink⟩ := h1
    have hfacts := incItems_freq_facts (k := k) hcc
    refine ⟨hcp, hfacts.1, ?_⟩
    intro x hx f hf
    have hle := hfacts.2 f hf
    have hlt : x < curr.freq := by
      apply hlink x hx
      simp
    omega
  · intro b hb
    rcases List.mem_append.mp hb with hbp | hbi
    · exact h2 b (List.mem_append.mpr (Or.inl hbp))
    · have hcf : 1 ≤ curr.freq :=
        h2 curr (List.mem_append.mpr (Or.inr (List.mem_cons_self curr rest)))
      have hrf : ∀ b' ∈ rest, 1 ≤ b'.freq := fun b' hb' =>
        h2 b' (List.mem_append.mpr (Or.inr (List.mem_cons_of_mem curr hb')))
      exact incItems_freq_pos hcf hrf b hbi
  · intro b hb
    rcases List.mem_append.mp hb with hbp | hbi
    · exact h3 b (List.mem_append.mpr (Or.inl hbp))
    · have hrn : ∀ b' ∈ rest, b'.items ≠ [] := fun b' hb' =>
        h3 b' (List.mem_append.mpr (Or.inr (List.mem_cons_of_mem curr hb')))
      exact incItems_nonempty hrn b hbi
  · exact hperm.symm.nodup h4
  · intro j hj
    exact hperm.mem_iff.mpr (h6 j hj)
  · intro j hj
    exact h7 j (hperm.mem_iff.mp hj)

/-! ### Lemmas about `placeNewList` -/

theorem bucketKeys_placeNewList_perm (k : String) (l : List FreqNode) :
    (bucketKeys (placeNewList k l)).Perm (k :: bucketKeys l) := by
  cases l with
  | nil => simp [placeNewList, bucketKeys_cons, bucketKeys]
  | cons front rest =>
    by_cases h : front.freq = 1
    · rw [placeNewList, if_pos h]
      rw [bucketKeys_cons, bucketKeys_cons]
      have h1 : ((front.items ++ [k]) ++ bucketKeys rest).Perm
          ((k :: front.items) ++ bucketKeys rest) :=
        (List.perm_append_singleton k front.items).append_right _
      exact h1
    · rw [placeNewList, if_neg h]
      rw [bucketKeys_cons, bucketKeys_cons]
      exact List.Perm.refl _

theorem partsInv_placeNewList {bs : List FreqNode} {kv : List (String × α)}
    (hInv : PartsInv bs kv) {k : String} (hk : k ∉ kvKeys kv) (v : α) :
    PartsInv (placeNewList k bs) (kv ++ [(k, v)]) := by
  obtain ⟨h1, h2, h3, h4, h5, h6, h7⟩ := hInv
  have hkb : k ∉ bucketKeys bs := fun hm => hk (h7 k hm)
  have hperm := bucketKeys_placeNewList_perm k bs
  have hkeys : kvKeys (kv ++ [(k, v)]) = kvKeys kv ++ [k] := kvKeys_append_single kv k v
  refine ⟨?_, ?_, ?_, ?_, ?_, ?_, ?_⟩
  · cases bs with
    | nil => simp [placeNewList]
    | cons front rest =>
      by_cases h : front.freq = 1
      · rw [placeNewList, if_pos h]
        simpa using h1
      · rw [placeNewList, if_neg h]
        have hpos : 1 ≤ front.freq := h2 front (List.mem_cons_self front rest)
        have : 1 < front.freq := lt_of_le_of_ne hpos (Ne.symm h)
        simp only [List.map_cons, List.chain'_cons]
        exact ⟨this, h1⟩
  · intro b hb
    cases bs with
    | nil =>
      simp only [placeNewList, List.mem_singleton] at hb
      subst hb
      exact le_refl 1
    | cons front rest =>
      by_cases h : front.freq = 1
      · rw [placeNewList, if_pos h] at hb
        rcases List.mem_cons.mp hb with rfl | hb
        · exact h2 front (List.mem_cons_self front rest)
        · exact h2 b (List.mem_cons_of_mem front hb)
      · rw [placeNewList, if_neg h] at hb
        rcases List.mem_cons.mp hb with rfl | hb
        · exact le_refl 1
        · exact h2 b hb
  · intro b hb
    cases bs with
    | nil =>
      simp only [placeNewList, List.mem_singleton] at hb
      subst hb
      simp
    | cons front rest =>
      by_cases h : front.freq = 1
      · rw [placeNewList, if_pos h] at hb
        rcases List.mem_cons.mp hb with rfl | hb
        · simp
        · exact h3 b (List.mem_cons_of_mem front hb)
      · rw [placeNewList, if_neg h] at hb
        rcases List.mem_cons.mp hb with rfl | hb
        · simp
        · exact h3 b hb
  · refine hperm.symm.nodup ?_
    exact List.nodup_cons.mpr ⟨hkb, h4⟩
  · rw [hkeys]
    have hps : (k :: kvKeys kv).Perm (kvKeys kv ++ [k]) :=
      (List.perm_append_singleton k _).symm
    refine hps.nodup ?_
    exact List.nodup_cons.mpr ⟨hk, h5⟩
  · intro j hj
    rw [hkeys] at hj
    rw [hperm.mem_iff]
    rcases List.mem_append.mp hj with hj | hj
    · exact List.mem_cons_of_mem k (h6 j hj)
    · simp only [List.mem_singleton] at hj
      subst hj
      exact List.mem_cons_self j _
  · intro j hj
    rw [hperm.mem_iff] at hj
    rw [hkeys]
    rcases List.mem_cons.mp hj with rfl | hj
    · exact List.mem_append.mpr (Or.inr (List.mem_singleton.mpr rfl))
    · exact List.mem_append.mpr (Or.inl (h7 j hj))

theorem freqOf_incItems_self {k : String} {curr : FreqNode} (rest : List FreqNode)
    (hnd : curr.items.Nodup) :
    freqOf (incItems k curr rest) k = curr.freq + 1 := by
  have hknr : k ∉ eraseKey k curr.items := not_mem_eraseKey_self hnd
  cases rest with
  | nil =>
    rw [incItems_nil]
    by_cases hrem : eraseKey k curr.items = []
    · rw [if_pos hrem]
      exact freqOf_cons_of_mem [] (by simp)
    · rw [if_neg hrem, freqOf_cons_of_not_mem _ hknr]
      exact freqOf_cons_of_mem [] (by simp)
  | cons nb rest' =>
    by_cases hf : nb.freq = curr.freq + 1
    · rw [incItems_cons, if_pos hf]
      by_cases hrem : eraseKey k curr.items = []
      · rw [if_pos hrem, freqOf_cons_of_mem rest' (by simp)]
        exact hf
      · rw [if_neg hrem, freqOf_cons_of_not_mem _ hknr,
          freqOf_cons_of_mem rest' (by simp)]
        exact hf
    · rw [incItems_cons, if_neg hf]
      by_cases hrem : eraseKey k curr.items = []
      · rw [if_pos hrem]
        exact freqOf_cons_of_mem _ (by simp)
      · rw [if_neg hrem, freqOf_cons_of_not_mem _ hknr]
        exact freqOf_cons_of_mem _ (by simp)

theorem bucket_containing_unique {p rest : List FreqNode} {curr b : FreqNode} {k : String}
    (hnd : (bucketKeys (p ++ curr :: rest)).Nodup) (hc : k ∈ curr.items)
    (hb : b ∈ p ++ curr :: rest) (hkb : k ∈ b.items) : b = curr := by
  rw [bucketKeys_append, bucketKeys_cons] at hnd
  rcases List.mem_append.mp hb with hbp | hbc
  · exfalso
    have hkp : k ∈ bucketKeys p := (mem_bucketKeys_iff p k).mpr ⟨b, hbp, hkb⟩
    exact (List.nodup_append.mp hnd).2.2 hkp (List.mem_append.mpr (Or.inl hc))
  · rcases List.mem_cons.mp hbc with rfl | hbr
    · rfl
    · exfalso
      have hkr : k ∈ bucketKeys rest := (mem_bucketKeys_iff rest k).mpr ⟨b, hbr, hkb⟩
      have hnd2 : (curr.items ++ bucketKeys rest).Nodup := (List.nodup_append.mp hnd).2.1
      exact (List.nodup_append.mp hnd2).2.2 hc hkr

theorem mem_incItems_of_mem_tail {k : String} {curr nb : FreqNode} {rest' : List FreqNode}
    {b : FreqNode} (hb : b ∈ rest') : b ∈ incItems k curr (nb :: rest') := by
  rw [incItems_cons]
  by_cases hf : nb.freq = curr.freq + 1
  · rw [if_pos hf]
    by_cases hrem : eraseKey k curr.items = []
    · rw [if_pos hrem]
      exact List.mem_cons_of_mem _ hb
    · rw [if_neg hrem]
      exact List.mem_cons_of_mem _ (List.mem_cons_of_mem _ hb)
  · rw [if_neg hf]
    by_cases hrem : eraseKey k curr.items = []
    · rw [if_pos hrem]
      exact List.mem_cons_of_mem _ (List.mem_cons_of_mem _ hb)
    · rw [if_neg hrem]
      exact List.mem_cons_of_mem _ (List.mem_cons_of_mem _ (List.mem_cons_of_mem _ hb))

theorem nb_mem_incItems_of_freq_ne {k : String} {curr nb : FreqNode} {rest' : List FreqNode}
    (hf : nb.freq ≠ curr.freq + 1) : nb ∈ incItems k curr (nb :: rest') := by
  rw [incItems_cons, if_neg hf]
  by_cases hrem : eraseKey k curr.items = []
  · rw [if_pos hrem]
    exact List.mem_cons_of_mem _ (List.mem_cons_self _ _)
  · rw [if_neg hrem]
    exact List.mem_cons_of_mem _ (List.mem_cons_of_mem _ (List.mem_cons_self _ _))

theorem merged_mem_incItems {k : String} {curr nb : FreqNode} {rest' : List FreqNode}
    (hf : nb.freq = curr.freq + 1) :
    FreqNode.mk nb.freq (nb.items ++ [k]) ∈ incItems k curr (nb :: rest') := by
  rw [incItems_cons, if_pos hf]
  by_cases hrem : eraseKey k curr.items = []
  · rw [if_pos hrem]
    exact List.mem_cons_self _ _
  · rw [if_neg hrem]
    exact List.mem_cons_of_mem _ (List.mem_cons_self _ _)

theorem singleton_mem_incItems_nil {k : String} {curr : FreqNode} :
    FreqNode.mk (curr.freq + 1) [k] ∈ incItems k curr [] := by
  rw [incItems_nil]
  by_cases hrem : eraseKey k curr.items = []
  · rw [if_pos hrem]
    exact List.mem_singleton.mpr rfl
  · rw [if_neg hrem]
    exact List.mem_cons_of_mem _ (List.mem_singleton.mpr rfl)

theorem singleton_mem_incItems_cons {k : String} {curr nb : FreqNode}
    {rest' : List FreqNode} (hf : nb.freq ≠ curr.freq + 1) :
    FreqNode.mk (curr.freq + 1) [k] ∈ incItems k curr (nb :: rest') := by
  rw [incItems_cons, if_neg hf]
  by_cases hrem : eraseKey k curr.items = []
  · rw [if_pos hrem]
    exact List.mem_cons_self _ _
  · rw [if_neg hrem]
    exact List.mem_cons_of_mem _ (List.mem_cons_self _ _)

theorem oldnode_mem_incItems {k : String} {curr : FreqNode} {rest : List FreqNode}
    (hrem : eraseKey k curr.items ≠ []) :
    FreqNode.mk curr.freq (eraseKey k curr.items) ∈ incItems k curr rest := by
  cases rest with
  | nil =>
    rw [incItems_nil, if_neg hrem]
    exact List.mem_cons_self _ _
  | cons nb rest' =>
    rw [incItems_cons]
    by_cases hf : nb.freq = curr.freq + 1
    · rw [if_pos hf, if_neg hrem]
      exact List.mem_cons_self _ _
    · rw [if_neg hf, if_neg hrem]
      exact List.mem_cons_self _ _

/-! ### Invariant preservation by the public operations -/

theorem partsInv_congr_kv {bs : List FreqNode} {kv₁ kv₂ : List (String × α)}
    (h : kvKeys kv₂ = kvKeys kv₁) (hInv : PartsInv bs kv₁) : PartsInv bs kv₂ := by
  obtain ⟨h1, h2, h3, h4, h5, h6, h7⟩ := hInv
  refine ⟨h1, h2, h3, h4, ?_, ?_, ?_⟩
  · rw [h]
    exact h5
  · rw [h]
    exact h6
  · rw [h]
    exact h7

theorem inv_evict {c : Cache α} (hInv : Inv c) (n : Int) : Inv (evict c n) := by
  unfold evict
  by_cases h : n ≤ 0
  · rw [if_pos h]
    exact hInv
  · rw [if_neg h]
    exact partsInv_evictLoop _ hInv

theorem inv_setBody {c : Cache α} (hInv : Inv c) (k : String) (v : α) :
    Inv (setBody c k v) := by
  unfold setBody
  cases hl : mapLookup c.kv k with
  | none =>
    have hk : k ∉ kvKeys c.kv := (mapLookup_eq_none_iff _ _).mp hl
    exact partsInv_placeNewList hInv hk v
  | some v0 =>
    have hk : k ∈ kvKeys c.kv := mem_kvKeys_of_mapLookup_eq_some hl
    have hkb : k ∈ bucketKeys c.freqList := hInv.2.2.2.2.2.1 k hk
    exact partsInv_congr_kv (kvKeys_mapUpdate c.kv k v) (partsInv_incrementList hInv hkb)

theorem inv_set {c : Cache α} (hInv : Inv c) (k : String) (v : α) : Inv (set c k v) := by
  unfold set
  by_cases h : setCheck c
  · rw [if_pos h]
    exact inv_setBody (inv_evict hInv 1) k v
  · rw [if_neg h]
    exact inv_setBody hInv k v

theorem inv_get {c : Cache α} (hInv : Inv c) (k : String) : Inv (get c k).2 := by
  unfold get
  cases hl : mapLookup c.kv k with
  | none => exact hInv
  | some v =>
    have hk : k ∈ kvKeys c.kv := mem_kvKeys_of_mapLookup_eq_some hl
    exact partsInv_incrementList hInv (hInv.2.2.2.2.2.1 k hk)

theorem inv_new (α : Type) (cap : Int) : Inv (New α cap) := by
  refine ⟨?_, ?_, ?_, ?_, ?_, ?_, ?_⟩ <;> simp [New, bucketKeys, kvKeys]

theorem inv_applyOp {c : Cache α} (hInv : Inv c) (op : Op α) : Inv (applyOp c op) := by
  cases op with
  | setOp k v => exact inv_set hInv k v
  | getOp k => exact inv_get hInv k
  | evictOp n => exact inv_evict hInv n

theorem inv_runOps {c : Cache α} (hInv : Inv c) (ops : List (Op α)) :
    Inv (runOps c ops) := by
  induction ops generalizing c with
  | nil => exact hInv
  | cons op rest ih => exact ih (inv_applyOp hInv op)

/-! ### Lemmas about `set` and the capacity policy -/

theorem setCheck_false_of_cap_nonpos {c : Cache α} (h : c.cap ≤ 0) :
    setCheck c = false := by
  unfold setCheck
  simp only [decide_eq_false_iff_not]
  rintro ⟨h1, _⟩
  omega

theorem set_eq_setBody_of_cap_nonpos {c : Cache α} (h : c.cap ≤ 0) (k : String) (v : α) :
    set c k v = setBody c k v := by
  unfold set
  rw [setCheck_false_of_cap_nonpos h]
  rfl

theorem setBody_of_not_mem {c : Cache α} {k : String} (h : k ∉ kvKeys c.kv) (v : α) :
    setBody c k v =
      { c with kv := c.kv ++ [(k, v)], freqList := placeNewList k c.freqList } := by
  unfold setBody
  rw [(mapLookup_eq_none_iff c.kv k).mpr h]

theorem cap_evict (c : Cache α) (n : Int) : (evict c n).cap = c.cap := by
  unfold evict
  by_cases h : n ≤ 0
  · rw [if_pos h]
  · rw [if_neg h]

theorem cap_setBody (c : Cache α) (k : String) (v : α) : (setBody c k v).cap = c.cap := by
  unfold setBody
  cases mapLookup c.kv k <;> rfl

theorem kvKeys_setBody_of_not_mem {c : Cache α} {k : String} (h : k ∉ kvKeys c.kv) (v : α) :
    kvKeys (setBody c k v).kv = kvKeys c.kv ++ [k] := by
  rw [setBody_of_not_mem h v]
  exact kvKeys_append_single c.kv k v

theorem size_setBody_of_not_mem {c : Cache α} {k : String} (h : k ∉ kvKeys c.kv) (v : α) :
    size (setBody c k v) = size c + 1 := by
  rw [setBody_of_not_mem h v]
  simp [size]

theorem size_setAll_unbounded (kvs : List (String × α)) :
    ∀ c : Cache α, c.cap ≤ 0 → (kvs.map Prod.fst).Nodup →
      (∀ j ∈ kvs.map Prod.fst, j ∉ kvKeys c.kv) →
      size (setAll c kvs) = size c + kvs.length := by
  induction kvs with
  | nil =>
    intro c _ _ _
    simp [setAll]
  | cons p rest ih =>
    intro c hcap hnd hdis
    have hp : p.1 ∉ kvKeys c.kv := hdis p.1 (by simp)
    have hnd' : (rest.map Prod.fst).Nodup := (List.nodup_cons.mp hnd).2
    have hpn : p.1 ∉ rest.map Prod.fst := (List.nodup_cons.mp hnd).1
    rw [setAll, set_eq_setBody_of_cap_nonpos hcap p.1 p.2]
    have hcap' : (setBody c p.1 p.2).cap ≤ 0 := by
      rw [cap_setBody]
      exact hcap
    have hdis' : ∀ j ∈ rest.map Prod.fst, j ∉ kvKeys (setBody c p.1 p.2).kv := by
      intro j hj
      rw [kvKeys_setBody_of_not_mem hp p.2]
      intro hmem
      rcases List.mem_append.mp hmem with hm | hm
      · exact hdis j (List.mem_cons_of_mem p.1 hj) hm
      · simp only [List.mem_singleton] at hm
        subst hm
        exact hpn hj
    rw [ih (setBody c p.1 p.2) hcap' hnd' hdis', size_setBody_of_not_mem hp p.2]
    simp only [List.length_cons]
    omega

theorem size_evict_one {c : Cache α} (hInv : Inv c) (h1 : 1 ≤ size c) :
    size (evict c 1) + 1 = size c := by
  have hlen := evictLoop_length ((1 : Int).toNat) hInv
  have hsum := partsInv_sumItems_eq hInv
  unfold evict
  rw [if_neg (by omega : ¬ (1 : Int) ≤ 0)]
  unfold size at h1 ⊢
  rw [hlen, hsum]
  have : (1 : Int).toNat = 1 := rfl
  omega

theorem kvKeys_evict_subset (c : Cache α) (n : Int) :
    ∀ j ∈ kvKeys (evict c n).kv, j ∈ kvKeys c.kv := by
  intro j hj
  unfold evict at hj
  by_cases h : n ≤ 0
  · rw [if_pos h] at hj
    exact hj
  · rw [if_neg h] at hj
    exact ((evictLoop_kv_sublist _ _ _).map Prod.fst).subset hj

/-! ### Example states used by the witnesses -/

/-- An unbounded cache holding `a` at frequency 2 and `b` at frequency 1:
the result of `Set("a",0); Set("b",1); Get("a")`. -/
def exCache : Cache Int :=
  runOps (New Int 0) [Op.setOp "a" 0, Op.setOp "b" 1, Op.getOp "a"]

/-- An unbounded cache holding three entries at frequency 1. -/
def exCache3 : Cache Int :=
  runOps (New Int 0) [Op.setOp "a" 0, Op.setOp "b" 1, Op.setOp "c" 2]

/-- A capacity-2 cache filled to capacity. -/
def exCacheFull : Cache Int :=
  runOps (New Int 2) [Op.setOp "a" 0, Op.setOp "b" 1]

/-- A capacity-1 cache filled to capacity, the start state of the
interleaving scenario. -/
def fullOne : Cache Int := set (New Int 1) "z" 0

/-- Two `Set` calls of the distinct new keys `"x"` and `"y"` on `fullOne`,
interleaved step by step: both capacity checks run before either
eviction or insertion. -/
def interleavedRun : Cache Int × ThreadSt × ThreadSt :=
  runTwoSets "x" 1 "y" 2 [false, true, false, true, false, true] (twoSetsInit fullOne)

/-- The same two `Set` calls run to completion one after the other. -/
def sequentialRun : Cache Int × ThreadSt × ThreadSt :=
  runTwoSets "x" 1 "y" 2 [false, false, false, true, true, true] (twoSetsInit fullOne)

/-- Intermediate states of the capacity-2 trace of C7: the cache after
`Set(a,1); Set(b,2)`. -/
def c7Two : Cache Int := set (set (New Int 2) "a" 1) "b" 2

/-- The C7 trace cache after the subsequent `Get(a)`. -/
def c7AfterGet : Cache Int := (get c7Two "a").2

/-- The C7 trace cache after the final `Set(c,3)`. -/
def c7Final : Cache Int := set c7AfterGet "c" 3

/-! ### The claims -/

/-- C1: the claim states that `Set(k, v)` on a key already present updates
the value in place, increments the frequency, and performs no eviction, so
`Set(k,v1); Set(k,v2); Get(k)` returns `(v2, true)` and leaves `Size()`
unchanged.  The code contradicts this (and the doc comment of `Set`
itself, which promises eviction only for a never-seen key): the capacity
check at the top of `Set` runs before the presence check, so at capacity
a `Set` of a present key first evicts an entry.  Evaluated at the failing
input: capacity 2, `Set("b",0); Set("a",1)` fills the cache, then
`Set("a",2)` evicts `"b"` and `Size()` drops from 2 to 1. -/
theorem C1_set_present_key_evicts_at_capacity :
    size (set (set (New Int 2) "b" 0) "a" 1) = 2 ∧
    mapLookup (set (set (New Int 2) "b" 0) "a" 1).kv "b" = some 0 ∧
    mapLookup (set (set (New Int 2) "b" 0) "a" 1).kv "a" = some 1 ∧
    size (set (set (set (New Int 2) "b" 0) "a" 1) "a" 2) = 1 ∧
    mapLookup (set (set (set (New Int 2) "b" 0) "a" 1) "a" 2).kv "b" = none ∧
    (get (set (set (set (New Int 2) "b" 0) "a" 1) "a" 2) "a").1 = some 2 := by decide

/-- C2 (counterexample): the claim that the capacity check, the eviction
and the insertion of one `Set` form one atomic unit — so that no
interleaving of two `Set` calls of distinct new keys can overshoot
capacity — is false of the code: with capacity 1 and a full cache the
schedule check₁ check₂ evict₁ evict₂ insert₁ insert₂ ends at `Size() = 2`. -/
theorem C2_counterexample :
    ¬ (∀ sched : List Bool,
        size (runTwoSets "x" 1 "y" 2 sched (twoSetsInit (set (New Int 1) "z" 0))).1 ≤ 1) := by
  intro h
  exact absurd (h [false, true, false, true, false, true]) (by decide)

/-- C2 (amended): in the code the capacity check at the top of `Set` runs
before the mutex is taken, and `Evict(1)` and the insertion are two
separate critical sections, so the three steps are not atomic: with
capacity 1 and a full cache there is an interleaving of two `Set` calls
of distinct new keys in which both observe the cache full yet both
insert, ending at `Size() = 2`, above capacity, while the fully
sequential schedule ends at `Size() = 1`. -/
theorem C2_nonatomic_set_overshoots :
    fullOne.cap = 1 ∧ size fullOne = 1 ∧
    interleavedRun.2.1.doEvict = true ∧ interleavedRun.2.2.doEvict = true ∧
    interleavedRun.2.1.pc = 3 ∧ interleavedRun.2.2.pc = 3 ∧
    size interleavedRun.1 = 2 ∧ size sequentialRun.1 = 1 := by decide

/-- C3: after every sequence of Set/Get/Evict calls starting from an
empty cache, the bucket sequence is strictly increasing in frequency from
head to tail, contains no two buckets with the same frequency and no
empty bucket, and `Size()` equals the sum of the bucket member counts,
which equals the key-index size. -/
theorem C3_invariants_hold (α : Type) (cap : Int) (ops : List (Op α)) :
    let c := runOps (New α cap) ops
    List.Chain' (· < ·) (c.freqList.map FreqNode.freq) ∧
    (c.freqList.map FreqNode.freq).Nodup ∧
    (∀ b ∈ c.freqList, b.items ≠ []) ∧
    size c = sumItems c.freqList ∧
    size c = (kvKeys c.kv).length := by
  intro c
  have hInv : Inv c := inv_runOps (inv_new α cap) ops
  have hsum := partsInv_sumItems_eq hInv
  obtain ⟨h1, h2, h3, h4, h5, h6, h7⟩ := hInv
  refine ⟨h1, ?_, h3, hsum.symm, ?_⟩
  · exact (List.chain'_iff_pairwise.mp h1).imp ne_of_lt
  · exact (List.length_map c.kv Prod.fst).symm

/-- C8: for every cache state and key `k` not present in the key index,
`Get(k)` returns `found = false` and has no side effect at all: the
returned state is the input state, so `Size()`, the key index and all
bucket contents are unchanged. -/
theorem C8_get_absent_no_side_effect (α : Type) (c : Cache α) (k : String)
    (h : k ∉ kvKeys c.kv) : get c k = (none, c) := by
  unfold get
  rw [(mapLookup_eq_none_iff c.kv k).mpr h]

/-- C8 witness: `Get("zz")` on a cache that never saw `"zz"` misses and
changes nothing. -/
theorem C8_get_absent_no_side_effect_witness :
    get exCache "zz" = (none, exCache) :=
  C8_get_absent_no_side_effect Int exCache "zz" (by decide)

/-- C9: `Evict(n)` with `n ≤ 0` is a no-op leaving the entire state
unchanged, and `Evict(n)` with `n` greater than the current `Size()`
empties the cache without error, leaving `Size() = 0`. -/
theorem C9_evict_nonpos_noop_overshoot_empties (α : Type) (c : Cache α) (n : Int) :
    (n ≤ 0 → evict c n = c) ∧
    (Inv c → (size c : Int) < n →
      size (evict c n) = 0 ∧ (evict c n).kv = [] ∧ (evict c n).freqList = []) := by
  constructor
  · intro h
    unfold evict
    rw [if_pos h]
  · intro hInv hlt
    have hsz : (0 : Int) ≤ (size c : Int) := Int.ofNat_nonneg _
    have hne : ¬ n ≤ 0 := by omega
    have hsum := partsInv_sumItems_eq hInv
    have hnonempty : ∀ b ∈ c.freqList, b.items ≠ [] := hInv.2.2.1
    have hr : sumItems c.freqList ≤ n.toNat := by
      have : (size c : Int) < n := hlt
      unfold size at this
      omega
    have hbn := evictLoop_buckets_nil c.kv n.toNat hnonempty hr
    have hlen := evictLoop_length n.toNat hInv
    unfold evict
    rw [if_neg hne]
    have hkvlen : (evictLoop c.freqList c.kv n.toNat).2.length = 0 := by
      rw [hlen]
      omega
    refine ⟨hkvlen, List.length_eq_zero.mp hkvlen, hbn⟩

/-- C9 witness: on a 3-entry cache, `Evict(-5)` changes nothing and
`Evict(5)` empties the cache. -/
theorem C9_evict_nonpos_noop_overshoot_empties_witness :
    evict exCache3 (-5) = exCache3 ∧ size (evict exCache3 5) = 0 :=
  ⟨(C9_evict_nonpos_noop_overshoot_empties Int exCache3 (-5)).1 (by decide),
   ((C9_evict_nonpos_noop_overshoot_empties Int exCache3 5).2 (by decide) (by decide)).1⟩

/-- C10: for every invariant-satisfying state and every `n > 0`,
`Evict(n)` removes exactly `min(n, Size())` entries, i.e. `Size()`
afterwards equals `max(0, Size() − n)` (truncated subtraction). -/
theorem C10_evict_removes_exactly_min (α : Type) (c : Cache α) (hInv : Inv c)
    (n : Int) (hn : 0 < n) :
    size (evict c n) = size c - min n.toNat (size c) ∧
    size c - size (evict c n) = min n.toNat (size c) := by
  have hne : ¬ n ≤ 0 := by omega
  have hlen := evictLoop_length n.toNat hInv
  have hsum := partsInv_sumItems_eq hInv
  unfold evict
  rw [if_neg hne]
  unfold size
  refine ⟨by rw [hlen, hsum], ?_⟩
  rw [hlen, hsum]
  omega

/-- C10 witness: evicting 5 from a 2-entry cache removes exactly
`min(5, 2) = 2` entries, and evicting 1 removes exactly one. -/
theorem C10_evict_removes_exactly_min_witness :
    (size (evict exCache 5) = size exCache - min (5 : Int).toNat (size exCache) ∧
      size exCache - size (evict exCache 5) = min (5 : Int).toNat (size exCache)) ∧
    (size (evict exCache 1) = size exCache - min (1 : Int).toNat (size exCache) ∧
      size exCache - size (evict exCache 1) = min (1 : Int).toNat (size exCache)) :=
  ⟨C10_evict_removes_exactly_min Int exCache (by decide) 5 (by decide),
   C10_evict_removes_exactly_min Int exCache (by decide) 1 (by decide)⟩

/-- C7: the concrete capacity-2 trace: `Set(a,1); Set(b,2)` puts both at
frequency 1 with `Size() = 2`; `Get(a)` returns `(1, true)` and moves `a`
to frequency 2; `Set(c,3)` on the full cache evicts exactly the sole
frequency-1 entry `b`, after which the keys present are exactly `a` and
`c` and `Size() = 2`. -/
theorem C7_capacity_two_trace :
    freqOf c7Two.freqList "a" = 1 ∧ freqOf c7Two.freqList "b" = 1 ∧ size c7Two = 2 ∧
    (get c7Two "a").1 = some 1 ∧ freqOf c7AfterGet.freqList "a" = 2 ∧
    freqOf c7AfterGet.freqList "b" = 1 ∧
    c7AfterGet.freqList.map FreqNode.items = [["b"], ["a"]] ∧
    mapLookup c7Final.kv "b" = none ∧ mapLookup c7Final.kv "a" = some 1 ∧
    mapLookup c7Final.kv "c" = some 3 ∧ kvKeys c7Final.kv = ["a", "c"] ∧
    size c7Final = 2 := by decide

/-- C6: a cache built with a non-positive capacity is unbounded: `Set`
skips the capacity/eviction phase entirely, and a sequence of `Set`s of
distinct keys from empty leaves `Size()` equal to the number of keys
inserted.  With a positive capacity `C` and `Size() = C`, a `Set` of a
new key performs exactly one automatic eviction (`Set` becomes
`Evict(1)` followed by the insertion, and the eviction removes exactly
one entry) and leaves `Size() = C`, hence `Size() ≤ C`. -/
theorem C6_capacity_semantics (α : Type) :
    (∀ c : Cache α, c.cap ≤ 0 → ∀ k v, set c k v = setBody c k v) ∧
    (∀ cap : Int, cap ≤ 0 → ∀ kvs : List (String × α), (kvs.map Prod.fst).Nodup →
      size (setAll (New α cap) kvs) = kvs.length) ∧
    (∀ c : Cache α, Inv c → 0 < c.cap → (size c : Int) = c.cap →
      ∀ k v, k ∉ kvKeys c.kv →
        set c k v = setBody (evict c 1) k v ∧
        size (evict c 1) + 1 = size c ∧
        (size (set c k v) : Int) = c.cap) := by
  refine ⟨?_, ?_, ?_⟩
  · intro c h k v
    exact set_eq_setBody_of_cap_nonpos h k v
  · intro cap hcap kvs hnd
    have hdis : ∀ j ∈ kvs.map Prod.fst, j ∉ kvKeys (New α cap).kv := by
      intro j _
      simp [New, kvKeys]
    have := size_setAll_unbounded kvs (New α cap) hcap hnd hdis
    simpa [size, New] using this
  · intro c hInv hcap hsize k v hk
    have hsz1 : 1 ≤ size c := by omega
    have hcheck : setCheck c = true := by
      unfold setCheck
      simp only [decide_eq_true_eq]
      refine ⟨hcap, ?_⟩
      unfold size at hsize
      omega
    have hseteq : set c k v = setBody (evict c 1) k v := by
      unfold set
      rw [hcheck]
      rfl
    have hdrop : size (evict c 1) + 1 = size c := size_evict_one hInv hsz1
    have hk' : k ∉ kvKeys (evict c 1).kv := fun hm => hk (kvKeys_evict_subset c 1 k hm)
    refine ⟨hseteq, hdrop, ?_⟩
    rw [hseteq, size_setBody_of_not_mem hk' v]
    omega

/-- C6 witness: with capacity −1 a `Set` is just the locked body; two
distinct-key `Set`s on an unbounded empty cache give `Size() = 2`; a
`Set` of the new key `"c"` on a full capacity-2 cache evicts once and
leaves `Size()` equal to the capacity. -/
theorem C6_capacity_semantics_witness :
    set (New Int (-1)) "a" 0 = setBody (New Int (-1)) "a" 0 ∧
    size (setAll (New Int 0) [("a", 0), ("b", 1)]) = 2 ∧
    size (evict exCacheFull 1) + 1 = size exCacheFull ∧
    (size (set exCacheFull "c" 5) : Int) = exCacheFull.cap :=
  ⟨(C6_capacity_semantics Int).1 (New Int (-1)) (by decide) "a" 0,
   (C6_capacity_semantics Int).2.1 0 (by decide) [("a", 0), ("b", 1)] (by decide),
   ((C6_capacity_semantics Int).2.2 exCacheFull (by decide) (by decide) (by decide)
      "c" 5 (by decide)).2.1,
   ((C6_capacity_semantics Int).2.2 exCacheFull (by decide) (by decide) (by decide)
      "c" 5 (by decide)).2.2⟩

/-- C4: for every invariant-satisfying state, eviction takes entries from
the lowest-frequency bucket first and only then moves to higher buckets:
whenever a key `x` is evicted by `Evict(n)` while a key `y` survives,
`x`'s frequency is at most `y`'s.  Consequently a live key whose
frequency is strictly greater than every other live key's is never the
one chosen by `Evict(1)` while a lower-frequency key exists. -/
theorem C4_evict_lowest_frequency_first (α : Type) (c : Cache α) (hInv : Inv c) :
    (∀ n : Int, ∀ x y : String, x ∈ kvKeys c.kv → x ∉ kvKeys (evict c n).kv →
        y ∈ kvKeys (evict c n).kv → freqOf c.freqList x ≤ freqOf c.freqList y) ∧
    (∀ k, k ∈ kvKeys c.kv →
        (∀ j ∈ kvKeys c.kv, j ≠ k → freqOf c.freqList j < freqOf c.freqList k) →
        (∃ j ∈ kvKeys c.kv, j ≠ k) →
        k ∈ kvKeys (evict c 1).kv) := by
  constructor
  · intro n x y hx hxe hy
    unfold evict at hxe hy
    by_cases h : n ≤ 0
    · rw [if_pos h] at hxe
      exact absurd hx hxe
    · rw [if_neg h] at hxe hy
      exact evictLoop_preferential n.toNat hInv x y hx hxe hy
  · intro k hk hmax hother
    obtain ⟨j, hj, hjk⟩ := hother
    have hkb : k ∈ bucketKeys c.freqList := hInv.2.2.2.2.2.1 k hk
    cases hfl : c.freqList with
    | nil =>
      rw [hfl] at hkb
      cases hkb
    | cons b rest =>
      have hbne : b.items ≠ [] := by
        apply hInv.2.2.1 b
        rw [hfl]
        exact List.mem_cons_self b rest
      cases hbi : b.items with
      | nil => exact absurd hbi hbne
      | cons x xs =>
        have hchain : List.Chain' (· < ·) ((b :: rest).map FreqNode.freq) := by
          have h1 := hInv.1
          rw [hfl] at h1
          exact h1
        have hev : (evict c 1).kv = c.kv.filter (fun p => decide (p.1 ∉ [x])) := by
          unfold evict
          rw [if_neg (by omega : ¬ (1 : Int) ≤ 0)]
          have : evictLoop c.freqList c.kv ((1 : Int).toNat) =
              evictLoop (b :: rest) c.kv 1 := by
            rw [hfl]
            rfl
          rw [this]
          exact evictLoop_one_kv rest c.kv hbi
        have hxb : x ∈ b.items := by
          rw [hbi]
          exact List.mem_cons_self x xs
        have hxfreq : freqOf c.freqList x = b.freq := by
          rw [hfl]
          exact freqOf_cons_of_mem rest hxb
        have hjb : j ∈ bucketKeys c.freqList := hInv.2.2.2.2.2.1 j hj
        have hjfreq : b.freq ≤ freqOf c.freqList j := by
          rw [hfl] at hjb ⊢
          exact head_freq_le_freqOf b rest hchain j hjb
        have hkx : k ≠ x := by
          intro heq
          subst heq
          have h1 := hmax j hj hjk
          rw [hxfreq] at h1
          omega
        rw [hev, mem_kvKeys_filter]
        refine ⟨hk, ?_⟩
        simp only [List.mem_singleton]
        exact hkx

/-- C4 witness: in a cache where `"a"` has frequency 2 and `"b"`
frequency 1, the key evicted by `Evict(1)` (which is `"b"`) has frequency
at most `"a"`'s, and `"a"`, the strict-maximum-frequency key, survives
`Evict(1)`. -/
theorem C4_evict_lowest_frequency_first_witness :
    freqOf exCache.freqList "b" ≤ freqOf exCache.freqList "a" ∧
    "a" ∈ kvKeys (evict exCache 1).kv :=
  ⟨(C4_evict_lowest_frequency_first Int exCache (by decide)).1 1 "b" "a"
      (by decide) (by decide) (by decide),
   (C4_evict_lowest_frequency_first Int exCache (by decide)).2 "a"
      (by decide) (by decide) (by decide)⟩

/-- C5: for an entry with key `k` whose current bucket `curr` has
frequency `f`, incrementing (as `Get` and re-`Set` of `k` do) moves it to
a bucket of frequency exactly `f + 1`: into the existing bucket of
frequency `f + 1` when one exists (by the strict frequency ordering it is
necessarily the immediate successor of `curr`), merging the member sets,
and into a freshly created singleton bucket otherwise; `k` is removed
from the old bucket (it then lives only in the `f + 1` bucket), the old
bucket disappears exactly when it became empty, no bucket is left empty,
the overall key population is preserved, the strict frequency ordering is
preserved, and buckets of all other frequencies are untouched. -/
theorem C5_increment_moves_entry (α : Type) (c : Cache α) (hInv : Inv c)
    (k : String) (curr : FreqNode) (hcurr : curr ∈ c.freqList) (hkc : k ∈ curr.items) :
    freqOf (incrementList k c.freqList) k = curr.freq + 1 ∧
    (bucketKeys (incrementList k c.freqList)).Perm (bucketKeys c.freqList) ∧
    List.Chain' (· < ·) ((incrementList k c.freqList).map FreqNode.freq) ∧
    (∀ b ∈ incrementList k c.freqList, k ∈ b.items → b.freq = curr.freq + 1) ∧
    (∀ b ∈ incrementList k c.freqList, b.items ≠ []) ∧
    ((∀ nb ∈ c.freqList, nb.freq ≠ curr.freq + 1) →
      FreqNode.mk (curr.freq + 1) [k] ∈ incrementList k c.freqList) ∧
    (∀ nb ∈ c.freqList, nb.freq = curr.freq + 1 →
      FreqNode.mk nb.freq (nb.items ++ [k]) ∈ incrementList k c.freqList) ∧
    (eraseKey k curr.items ≠ [] →
      FreqNode.mk curr.freq (eraseKey k curr.items) ∈ incrementList k c.freqList) ∧
    (eraseKey k curr.items = [] →
      ∀ b ∈ incrementList k c.freqList, b.freq ≠ curr.freq) ∧
    (∀ b ∈ c.freqList, b.freq ≠ curr.freq → b.freq ≠ curr.freq + 1 →
      b ∈ incrementList k c.freqList) := by
  have hkb : k ∈ bucketKeys c.freqList := (mem_bucketKeys_iff _ k).mpr ⟨curr, hcurr, hkc⟩
  have hInv' := partsInv_incrementList hInv hkb
  have hperm := bucketKeys_incrementList_perm hkb
  obtain ⟨p, curr', rest, heq, hc', hp⟩ := exists_decomp_of_mem_bucketKeys hkb
  have h4 : (bucketKeys c.freqList).Nodup := hInv.2.2.2.1
  have hnd' : (bucketKeys (p ++ curr' :: rest)).Nodup := by
    rw [← heq]
    exact h4
  have hbmem : curr ∈ p ++ curr' :: rest := by
    rw [← heq]
    exact hcurr
  have hcurr'' : curr = curr' := bucket_containing_unique hnd' hc' hbmem hkc
  subst hcurr''
  have hL : incrementList k c.freqList = p ++ incItems k curr rest := by
    rw [heq]
    exact incrementList_append hp hc'
  have h4' : (bucketKeys p ++ (curr.items ++ bucketKeys rest)).Nodup := by
    have h := h4
    rw [heq, bucketKeys_append, bucketKeys_cons] at h
    exact h
  have hnd1 : (curr.items ++ bucketKeys rest).Nodup := (List.nodup_append.mp h4').2.1
  have hndcurr : curr.items.Nodup := List.Nodup.sublist (List.sublist_append_left _ _) hnd1
  have hknr : k ∉ bucketKeys rest := fun hm => (List.nodup_append.mp hnd1).2.2 hc' hm
  have h1 : List.Chain' (· < ·) (c.freqList.map FreqNode.freq) := hInv.1
  have hpw : List.Pairwise (· < ·) (c.freqList.map FreqNode.freq) :=
    List.chain'_iff_pairwise.mp h1
  rw [heq, List.map_append] at hpw
  obtain ⟨hpwp, hpwc, hpcross⟩ := List.pairwise_append.mp hpw
  have hcross : ∀ b ∈ p, b.freq < curr.freq := by
    intro b hb
    apply hpcross b.freq (List.mem_map_of_mem _ hb)
    simp
  have hsplit : (∀ a ∈ rest, curr.freq < a.freq) ∧
      List.Pairwise (· < ·) (rest.map FreqNode.freq) := by simpa using hpwc
  have hrest : ∀ b ∈ rest, curr.freq < b.freq := hsplit.1
  refine ⟨?_, hperm, hInv'.1, ?_, hInv'.2.2.1, ?_, ?_, ?_, ?_, ?_⟩
  · rw [hL, freqOf_append_of_not_mem hp]
    exact freqOf_incItems_self rest hndcurr
  · intro b hbm hkbm
    rw [hL] at hbm
    rcases List.mem_append.mp hbm with hbp | hbi
    · exact absurd hkbm (hp b hbp)
    · rcases mem_incItems_cases hbi with ⟨_, hi, _⟩ | ⟨hf, _⟩ | hbr
      · rw [hi] at hkbm
        exact absurd hkbm (not_mem_eraseKey_self hndcurr)
      · exact hf
      · exact absurd ((mem_bucketKeys_iff rest k).mpr ⟨b, hbr, hkbm⟩) hknr
  · intro hno
    rw [hL]
    refine List.mem_append.mpr (Or.inr ?_)
    cases rest with
    | nil => exact singleton_mem_incItems_nil
    | cons nb rest' =>
      have hnb : nb.freq ≠ curr.freq + 1 := by
        apply hno nb
        rw [heq]
        exact List.mem_append.mpr
          (Or.inr (List.mem_cons_of_mem curr (List.mem_cons_self nb rest')))
      exact singleton_mem_incItems_cons hnb
  · intro nb₀ hnb₀ hf₀
    rw [heq] at hnb₀
    rw [hL]
    rcases List.mem_append.mp hnb₀ with hbp | hbc
    · exfalso
      have := hcross nb₀ hbp
      omega
    · rcases List.mem_cons.mp hbc with rfl | hbr
      · exfalso
        omega
      · cases rest with
        | nil => cases hbr
        | cons nb rest' =>
          rcases List.mem_cons.mp hbr with rfl | hbr'
          · exact List.mem_append.mpr (Or.inr (merged_mem_incItems hf₀))
          · exfalso
            have h1' := hrest nb (List.mem_cons_self nb rest')
            have hsplit2 : (curr.freq < nb.freq ∧ ∀ a ∈ rest', curr.freq < a.freq) ∧
                (∀ a ∈ rest', nb.freq < a.freq) ∧
                List.Pairwise (· < ·) (rest'.map FreqNode.freq) := by simpa using hpwc
            have h2' := hsplit2.2.1 nb₀ hbr'
            omega
  · intro hrem
    rw [hL]
    exact List.mem_append.mpr (Or.inr (oldnode_mem_incItems hrem))
  · intro hrem b hbm
    rw [hL] at hbm
    rcases List.mem_append.mp hbm with hbp | hbi
    · have := hcross b hbp
      omega
    · rcases mem_incItems_cases hbi with ⟨_, _, hne⟩ | ⟨hf, _⟩ | hbr
      · exact absurd hrem hne
      · omega
      · have := hrest b hbr
        omega
  · intro b hbm hne1 hne2
    rw [heq] at hbm
    rw [hL]
    rcases List.mem_append.mp hbm with hbp | hbc
    · exact List.mem_append.mpr (Or.inl hbp)
    · rcases List.mem_cons.mp hbc with rfl | hbr
      · exact absurd rfl hne1
      · refine List.mem_append.mpr (Or.inr ?_)
        cases rest with
        | nil => cases hbr
        | cons nb rest' =>
          rcases List.mem_cons.mp hbr with rfl | hbr'
          · exact nb_mem_incItems_of_freq_ne hne2
          · exact mem_incItems_of_mem_tail hbr'

/-- C5 witness: in a cache where `"a"` sits in the bucket of frequency 2,
incrementing `"a"` puts it at frequency 3. -/
theorem C5_increment_moves_entry_witness :
    freqOf (incrementList "a" exCache.freqList) "a" =
      (FreqNode.mk 2 ["a"]).freq + 1 :=
  (C5_increment_moves_entry Int exCache (by decide) "a" (FreqNode.mk 2 ["a"])
    (by decide) (by decide)).1

end LFU
